import Mathlib

/-!
Verification of the compile-time string literal obfuscation library (src/lib.rs).

The library obfuscates string literals at build time: a 32-bit key evolves
through a xorshift round function, and each code unit of the literal is XORed
with the low bits of the evolving key.  At run time the same key schedule is
replayed to decode the ciphertext, or to compare it against a candidate string
without materialising the plaintext.

Shallow embedding conventions:
* Machine integers are Nat with explicit reduction: u8 casts are a final
  percent 256, u16 casts percent 65536, u32 arithmetic percent 4294967296,
  u64 arithmetic percent 18446744073709551616.
* Rust strings are their UTF-8 byte sequences, modelled as List Nat.
* Fixed arrays written by index are List Nat updated by List.set; an
  out-of-bounds write (a const-eval panic in Rust) is modelled as none.
* The fatal branch of the UTF-8 decoder (the Rust unimplemented branch) and
  out-of-bounds continuation-byte reads are modelled as none.
* The call-site address masking in deobfuscate and eq reads
  (function-address + x) through a volatile load and subtracts x; the two
  operations cancel, so the mask argument x is threaded through the model but
  does not influence the result.  Likewise the data pointer is offset by
  LEN * XREF_SHIFT at the call site and un-offset first thing inside the
  decrypt routines; the model keeps the ciphertext list itself.  The stored
  key is recovered in the source by reading the u32 immediately preceding the
  data array (the repr(C) layout of ObfString); the model passes the key field
  directly.
-/

/-- Round function of the key-schedule cipher (src/lib.rs next_round):
the three-step 32-bit xorshift x ^= x << 13; x ^= x >> 17; x ^= x << 5,
with each left shift reduced modulo 2^32 as u32 arithmetic. -/
def next_round (x : Nat) : Nat :=
  let x1 := (x ^^^ (x <<< 13)) % 4294967296
  let x2 := x1 ^^^ (x1 >>> 17)
  (x2 ^^^ (x2 <<< 5)) % 4294967296

/-- Bit mixer (src/lib.rs splitmix): SplitMix64 finaliser on u64 values. -/
def splitmix (seed : Nat) : Nat :=
  let nxt := (seed + 0x9e3779b97f4a7c15) % 18446744073709551616
  let z1 := ((nxt ^^^ (nxt >>> 30)) * 0xbf58476d1ce4e5b9) % 18446744073709551616
  let z2 := ((z1 ^^^ (z1 >>> 27)) * 0x94d049bb133111eb) % 18446744073709551616
  z2 ^^^ (z2 >>> 31)

/-- Shape of a mixer as the specification describes it: add a constant, then a
list of (xor-shift, multiply-by-constant) rounds, then a final xor-shift, all
in u64 arithmetic.  This definition follows the spec's words, for comparison
with the splitmix definition taken from the source. -/
def mixSpecShape (c0 : Nat) (rounds : List (Nat × Nat)) (sfin : Nat) (x : Nat) : Nat :=
  let z0 := (x + c0) % 18446744073709551616
  let z := rounds.foldl (fun z sc => ((z ^^^ (z >>> sc.1)) * sc.2) % 18446744073709551616) z0
  z ^^^ (z >>> sfin)

/-- Accumulator loop of the DJB2-style string hash (src/lib.rs hash):
result = result.wrapping_mul(33).wrapping_add(byte) over each byte. -/
def hashAux (r : Nat) : List Nat → Nat
  | [] => r
  | b :: rest => hashAux ((r * 33 % 4294967296 + b) % 4294967296) rest

/-- Compile-time string hash (src/lib.rs hash; named hashStr here because the
bare name hash collides with the Hashable export): DJB2 variant with seed 3581
over the UTF-8 bytes of the input, in u32 arithmetic. -/
def hashStr (s : List Nat) : Nat := hashAux 3581 s

/-- UTF-8 bytes of the string literal "Hello World", the regression anchor
input used by the hash! macro documentation test. -/
def helloWorldBytes : List Nat := [72, 101, 108, 108, 111, 32, 87, 111, 114, 108, 100]

/-- Data-pointer offset constant as a function of the call-site entropy value
(src/lib.rs XREF_SHIFT): ((random!(u8) & 31) + 32), where random!(u8) truncates
the 64-bit entropy to its low byte. -/
def xrefShift (entropy : Nat) : Nat := ((entropy % 256) &&& 31) + 32

/-- One step of the UTF-8 decoder shared by wide_len and wide in the source
(both functions repeat the same leading-byte branch chain verbatim): classify
the leading byte, assemble the code point from the continuation bytes, and
return it with the remaining bytes.  Returns none when the leading byte
matches no pattern (the Rust unimplemented branch) or when a continuation
byte read would be out of bounds (a const-eval panic in Rust). -/
def utf8Step (s : List Nat) : Option (Nat × List Nat) :=
  match s with
  | [] => none
  | b0 :: rest =>
    if b0 &&& 0x80 = 0x00 then
      some (b0, rest)
    else if b0 &&& 0xe0 = 0xc0 then
      match rest with
      | b1 :: r => some ((b0 &&& 0x1f) <<< 6 ||| (b1 &&& 0x3f), r)
      | [] => none
    else if b0 &&& 0xf0 = 0xe0 then
      match rest with
      | b1 :: b2 :: r => some ((b0 &&& 0x0f) <<< 12 ||| (b1 &&& 0x3f) <<< 6 ||| (b2 &&& 0x3f), r)
      | _ => none
    else if b0 &&& 0xf8 = 0xf0 then
      match rest with
      | b1 :: b2 :: b3 :: r =>
        some ((b0 &&& 0x07) <<< 18 ||| (b1 &&& 0x3f) <<< 12 ||| (b2 &&& 0x3f) <<< 6 ||| (b3 &&& 0x3f), r)
      | _ => none
    else
      none

/-- Length pass of the wide-text converter (src/lib.rs wide_len): decode code
points one at a time (utf8Step is the loop body branch chain the source
repeats in wide_len and wide) and count 2 units for code points at or above
0x10000, 1 unit otherwise.  None models a const-eval panic. -/
def wide_len (s : List Nat) : Option Nat :=
  match s with
  | [] => some 0
  | b0 :: t =>
    match h : utf8Step (b0 :: t) with
    | none => none
    | some (chr, rest) =>
      match wide_len rest with
      | none => none
      | some n => some ((if chr ≥ 0x10000 then 2 else 1) + n)
termination_by s.length
decreasing_by
  simp only [utf8Step] at h
  split at h
  · cases h; simp only [List.length_cons]; omega
  · split at h
    · split at h
      · cases h; simp only [List.length_cons]; omega
      · cases h
    · split at h
      · split at h
        · cases h; simp only [List.length_cons]; omega
        · cases h
      · split at h
        · split at h
          · cases h; simp only [List.length_cons]; omega
          · cases h
        · cases h

/-- High surrogate emitted by the wide converter for a supplementary code
point (src/lib.rs wide): (0xD800 + (chr - 0x10000) / 0x400) as u16. -/
def hiSurrogate (chr : Nat) : Nat := (0xD800 + (chr - 0x10000) / 0x400) % 65536

/-- Low surrogate emitted by the wide converter for a supplementary code
point (src/lib.rs wide): (0xDC00 + (chr - 0x10000) % 0x400) as u16. -/
def loSurrogate (chr : Nat) : Nat := (0xDC00 + (chr - 0x10000) % 0x400) % 65536

/-- Sequence of UTF-16 units emitted by the wide converter, in emission
order: a surrogate pair for each code point at or above 0x10000, a single
unit (cast to u16) otherwise.  This is the append-form companion of the
array-writing loop wideAux below; the theorem wideAux_some connects the two. -/
def wideUnits (s : List Nat) : Option (List Nat) :=
  match s with
  | [] => some []
  | b0 :: t =>
    match h : utf8Step (b0 :: t) with
    | none => none
    | some (chr, rest) =>
      match wideUnits rest with
      | none => none
      | some us =>
        some (if chr ≥ 0x10000 then hiSurrogate chr :: loSurrogate chr :: us
          else chr % 65536 :: us)
termination_by s.length
decreasing_by
  simp only [utf8Step] at h
  split at h
  · cases h; simp only [List.length_cons]; omega
  · split at h
    · split at h
      · cases h; simp only [List.length_cons]; omega
      · cases h
    · split at h
      · split at h
        · cases h; simp only [List.length_cons]; omega
        · cases h
      · split at h
        · split at h
          · cases h; simp only [List.length_cons]; omega
          · cases h
        · cases h

/-- Loop body of the wide-text converter (src/lib.rs wide): decode code
points one at a time and write their UTF-16 units into the fixed output
array data at index j.  A write past the end of the array, which is a
const-eval panic in Rust, is modelled as none. -/
def wideAux (s : List Nat) (data : List Nat) (j : Nat) : Option (List Nat) :=
  match s with
  | [] => some data
  | b0 :: t =>
    match h : utf8Step (b0 :: t) with
    | none => none
    | some (chr, rest) =>
      if chr ≥ 0x10000 then
        if j + 1 < data.length then
          wideAux rest ((data.set j (hiSurrogate chr)).set (j + 1) (loSurrogate chr)) (j + 2)
        else none
      else
        if j < data.length then wideAux rest (data.set j (chr % 65536)) (j + 1) else none
termination_by s.length
decreasing_by
  all_goals
    simp only [utf8Step] at h
    split at h
    · cases h; simp only [List.length_cons]; omega
    · split at h
      · split at h
        · cases h; simp only [List.length_cons]; omega
        · cases h
      · split at h
        · split at h
          · cases h; simp only [List.length_cons]; omega
          · cases h
        · split at h
          · split at h
            · cases h; simp only [List.length_cons]; omega
            · cases h
          · cases h

/-- Wide-text converter (src/lib.rs wide): convert the UTF-8 bytes s into a
fixed array of LEN UTF-16 units, starting from a zero-initialised array. -/
def wide (LEN : Nat) (s : List Nat) : Option (List Nat) :=
  wideAux s (List.replicate LEN 0) 0

/-- Sequential writes into a fixed array: write the units us into data
starting at index j, one index at a time.  Helper used to relate the
index-writing loops of the source to their emitted sequences. -/
def listWrite (data : List Nat) (j : Nat) : List Nat → List Nat
  | [] => data
  | u :: us => listWrite (data.set j u) (j + 1) us

/-- One step of a well-formed UTF-8 (RFC 3629) validator: if s starts with a
valid 1-4 byte sequence (standard leading/continuation ranges, no overlong
forms, no surrogate code points, nothing above 0x10FFFF), return the bytes
after it, otherwise none.  This captures the byte sequences a Rust string
literal can contain, the precondition of the wide-converter totality claim. -/
def validStep (s : List Nat) : Option (List Nat) :=
  match s with
  | [] => none
  | b0 :: t =>
    if b0 ≤ 0x7f then some t
    else if 0xc2 ≤ b0 ∧ b0 ≤ 0xdf then
      match t with
      | b1 :: r => if 0x80 ≤ b1 ∧ b1 ≤ 0xbf then some r else none
      | [] => none
    else if b0 = 0xe0 then
      match t with
      | b1 :: b2 :: r =>
        if (0xa0 ≤ b1 ∧ b1 ≤ 0xbf) ∧ (0x80 ≤ b2 ∧ b2 ≤ 0xbf) then some r else none
      | _ => none
    else if (0xe1 ≤ b0 ∧ b0 ≤ 0xec) ∨ b0 = 0xee ∨ b0 = 0xef then
      match t with
      | b1 :: b2 :: r =>
        if (0x80 ≤ b1 ∧ b1 ≤ 0xbf) ∧ (0x80 ≤ b2 ∧ b2 ≤ 0xbf) then some r else none
      | _ => none
    else if b0 = 0xed then
      match t with
      | b1 :: b2 :: r =>
        if (0x80 ≤ b1 ∧ b1 ≤ 0x9f) ∧ (0x80 ≤ b2 ∧ b2 ≤ 0xbf) then some r else none
      | _ => none
    else if b0 = 0xf0 then
      match t with
      | b1 :: b2 :: b3 :: r =>
        if (0x90 ≤ b1 ∧ b1 ≤ 0xbf) ∧ (0x80 ≤ b2 ∧ b2 ≤ 0xbf) ∧ (0x80 ≤ b3 ∧ b3 ≤ 0xbf) then
          some r
        else none
      | _ => none
    else if 0xf1 ≤ b0 ∧ b0 ≤ 0xf3 then
      match t with
      | b1 :: b2 :: b3 :: r =>
        if (0x80 ≤ b1 ∧ b1 ≤ 0xbf) ∧ (0x80 ≤ b2 ∧ b2 ≤ 0xbf) ∧ (0x80 ≤ b3 ∧ b3 ≤ 0xbf) then
          some r
        else none
      | _ => none
    else if b0 = 0xf4 then
      match t with
      | b1 :: b2 :: b3 :: r =>
        if (0x80 ≤ b1 ∧ b1 ≤ 0x8f) ∧ (0x80 ≤ b2 ∧ b2 ≤ 0xbf) ∧ (0x80 ≤ b3 ∧ b3 ≤ 0xbf) then
          some r
        else none
      | _ => none
    else none

/-- Well-formed UTF-8 byte sequences: validStep succeeds repeatedly until the
input is exhausted. -/
def validUtf8 (s : List Nat) : Bool :=
  match s with
  | [] => true
  | b0 :: t =>
    match h : validStep (b0 :: t) with
    | none => false
    | some r => validUtf8 r
termination_by s.length
decreasing_by
  simp only [validStep] at h
  repeat' split at h
  all_goals cases h
  all_goals simp only [List.length_cons]
  all_goals omega

/-- Obfuscated string constant data (src/lib.rs ObfString): the key and the
obfuscated code-unit array baked into the binary.  The code-unit width (u8 or
u16) is tracked by which operations are applied, with the unit mask passed
explicitly (256 for the byte form, 65536 for the word form). -/
structure ObfString where
  key : Nat
  data : List Nat

/-- Ciphertext of the encode loop as an emitted sequence: evolve the round
key with next_round per code unit and XOR the unit with the key truncated to
the unit width (mask 256 for u8, 65536 for u16).  Companion of obfWrite. -/
def obfdata (mask round_key : Nat) : List Nat → List Nat
  | [] => []
  | u :: us =>
    let k := next_round round_key
    (u ^^^ (k % mask)) :: obfdata mask k us

/-- Encode loop of ObfString::obfuscate (src/lib.rs, both widths): iterate
over the source code units, evolve the round key, and write
string[i] ^ (round_key as unit) into the fixed output array data at index i.
A write past the end of the array (a const-eval panic in Rust) is none. -/
def obfWrite (mask round_key : Nat) (string : List Nat) (data : List Nat) (i : Nat) :
    Option (List Nat) :=
  match string with
  | [] => some data
  | u :: us =>
    let k := next_round round_key
    if i < data.length then obfWrite mask k us (data.set i (u ^^^ (k % mask))) (i + 1)
    else none

/-- Byte-string literal builder ObfString::<[u8; LEN]>::obfuscate
(src/lib.rs): encode the UTF-8 bytes of the source string into a fixed array
of LEN bytes.  The obfconst! macro instantiates LEN with the byte length of
the literal. -/
def ObfString.obfuscate8 (LEN key : Nat) (string : List Nat) : Option ObfString :=
  match obfWrite 256 key string (List.replicate LEN 0) 0 with
  | none => none
  | some data => some { key := key, data := data }

/-- Word-string literal builder ObfString::<[u16; LEN]>::obfuscate
(src/lib.rs): convert the source string to UTF-16 with wide, then encode the
units into a fixed array of LEN words.  The obfconst! macro instantiates LEN
with wide_len of the literal. -/
def ObfString.obfuscate16 (LEN key : Nat) (string : List Nat) : Option ObfString :=
  match wide LEN string with
  | none => none
  | some ws =>
    match obfWrite 65536 key ws (List.replicate LEN 0) 0 with
    | none => none
    | some data => some { key := key, data := data }

/-- Decode loop of decryptbuf / wdecryptbuf (src/lib.rs): replay the key
schedule from the stored key over the ciphertext units and XOR each unit with
the key truncated to the unit width. -/
def decryptbuf (mask key : Nat) : List Nat → List Nat
  | [] => []
  | c :: cs =>
    let k := next_round key
    (c ^^^ (k % mask)) :: decryptbuf mask k cs

/-- Comparison loop of decrypteq / wdecrypteq (src/lib.rs): replay the key
schedule and compare each candidate unit against ciphertext ^ key unit,
returning false at the first inequality.  The source loop runs over a common
length len; the model walks the two equal-length lists together. -/
def decrypteq (mask key : Nat) : List Nat → List Nat → Bool
  | o :: os, c :: cs =>
    let k := next_round key
    if c ≠ (o ^^^ (k % mask)) then false else decrypteq mask k os cs
  | _, _ => true

/-- Runtime decoder ObfString::<[u8; LEN]>::deobfuscate (src/lib.rs): the
masking scalar x is added to the address of the decrypt routine, read back
through a volatile load and subtracted again, and the data pointer offset
LEN * XREF_SHIFT applied at the call site is undone inside decryptbuf, so the
result is decryptbuf replayed on the stored key and ciphertext. -/
def ObfString.deobfuscate8 (o : ObfString) (_x : Nat) : List Nat :=
  decryptbuf 256 o.key o.data

/-- Runtime comparator ObfString::<[u8; LEN]>::eq (src/lib.rs): return false
when the candidate length differs from LEN, otherwise run decrypteq over the
ciphertext and the candidate bytes (the address masking by x cancels exactly
as in deobfuscate). -/
def ObfString.eq8 (o : ObfString) (s : List Nat) (_x : Nat) : Bool :=
  if o.data.length ≠ s.length then false
  else decrypteq 256 o.key o.data s

/-- Round function restricted to the 32-bit space, for the permutation
statement: next_round always lands below 2^32 because its last step is
reduced modulo 2^32. -/
def nextRoundFin (x : Fin 4294967296) : Fin 4294967296 :=
  ⟨next_round x.val, Nat.mod_lt _ (by decide)⟩

/-! Helper lemmas about the key schedule and the encode/decode loops. -/

theorem next_round_zero : next_round 0 = 0 := by decide

theorem iterate_next_round_zero (n : Nat) : next_round^[n] 0 = 0 := by
  induction n with
  | zero => rfl
  | succ n ih => rw [Function.iterate_succ_apply', ih, next_round_zero]

theorem obfdata_length (mask k : Nat) (s : List Nat) :
    (obfdata mask k s).length = s.length := by
  induction s generalizing k with
  | nil => rfl
  | cons b bs ih => simp [obfdata, ih]

theorem decryptbuf_length (mask k : Nat) (s : List Nat) :
    (decryptbuf mask k s).length = s.length := by
  induction s generalizing k with
  | nil => rfl
  | cons b bs ih => simp [decryptbuf, ih]

theorem decrypt_obfdata (mask k : Nat) (s : List Nat) :
    decryptbuf mask k (obfdata mask k s) = s := by
  induction s generalizing k with
  | nil => rfl
  | cons b bs ih =>
    simp [obfdata, decryptbuf, Nat.xor_assoc, Nat.xor_self, Nat.xor_zero, ih]

theorem obfdata_zero_key (s : List Nat) : obfdata 256 0 s = s := by
  induction s with
  | nil => rfl
  | cons b bs ih =>
    show (b ^^^ (next_round 0 % 256)) :: obfdata 256 (next_round 0) bs = b :: bs
    rw [next_round_zero]
    simpa using ih

theorem listWrite_append (us : List Nat) :
    ∀ pre : List Nat, listWrite (pre ++ List.replicate us.length 0) pre.length us = pre ++ us := by
  induction us with
  | nil => intro pre; simp [listWrite]
  | cons u tail ih =>
    intro pre
    show listWrite ((pre ++ List.replicate (tail.length + 1) 0).set pre.length u)
        (pre.length + 1) tail = pre ++ u :: tail
    rw [List.replicate_succ, List.set_append, if_neg (by omega)]
    simp only [Nat.sub_self, List.set]
    have hcons : pre ++ u :: List.replicate tail.length 0
        = (pre ++ [u]) ++ List.replicate tail.length 0 := by simp
    have hlen : pre.length + 1 = (pre ++ [u]).length := by simp
    rw [hcons, hlen, ih (pre ++ [u])]
    simp

theorem listWrite_replicate (us : List Nat) :
    listWrite (List.replicate us.length 0) 0 us = us := by
  simpa using listWrite_append us []

theorem obfWrite_some (mask : Nat) (string : List Nat) :
    ∀ k data i, i + string.length ≤ data.length →
      obfWrite mask k string data i = some (listWrite data i (obfdata mask k string)) := by
  induction string with
  | nil => intro k data i _; rfl
  | cons u us ih =>
    intro k data i h
    simp only [List.length_cons] at h
    show (if i < data.length then
        obfWrite mask (next_round k) us (data.set i (u ^^^ (next_round k % mask))) (i + 1)
      else none) = _
    rw [if_pos (by omega)]
    rw [ih (next_round k) (data.set i (u ^^^ (next_round k % mask))) (i + 1)
      (by simp only [List.length_set]; omega)]
    rfl

theorem obfuscate8_spec (key : Nat) (s : List Nat) :
    ObfString.obfuscate8 s.length key s = some { key := key, data := obfdata 256 key s } := by
  unfold ObfString.obfuscate8
  rw [obfWrite_some 256 s key (List.replicate s.length 0) 0 (by simp)]
  have h : listWrite (List.replicate s.length 0) 0 (obfdata 256 key s) = obfdata 256 key s := by
    rw [show s.length = (obfdata 256 key s).length from (obfdata_length 256 key s).symm]
    exact listWrite_replicate (obfdata 256 key s)
  rw [h]

theorem decrypteq_iff (mask k : Nat) :
    ∀ os cs : List Nat, os.length = cs.length →
      (decrypteq mask k os cs = true ↔ decryptbuf mask k os = cs) := by
  intro os
  induction os generalizing k with
  | nil =>
    intro cs h
    cases cs with
    | nil => simp [decrypteq, decryptbuf]
    | cons c cs => simp at h
  | cons o os ih =>
    intro cs h
    cases cs with
    | nil => simp at h
    | cons c cs =>
      simp only [List.length_cons, Nat.add_right_cancel_iff] at h
      show (if c ≠ (o ^^^ (next_round k % mask)) then false
          else decrypteq mask (next_round k) os cs) = true ↔
        (o ^^^ (next_round k % mask)) :: decryptbuf mask (next_round k) os = c :: cs
      by_cases hc : c = o ^^^ (next_round k % mask)
      · rw [if_neg (by simp [hc])]
        rw [ih (next_round k) cs h]
        simp [hc]
      · rw [if_pos (by simpa using hc)]
        constructor
        · intro hfalse; exact absurd hfalse (by simp)
        · intro heq
          exfalso
          apply hc
          injection heq with h1 _
          exact h1.symm

/-! Claim theorems about the byte-string cipher. -/

/-- C1: round trip for the narrow form.  For every source string s (as UTF-8
bytes), every 32-bit starting key and every masking scalar x, the literal
built by ObfString::<[u8; LEN]>::obfuscate with LEN = s.len() (as obfconst!
instantiates it) is constructed successfully, and deobfuscate — replaying the
next_round key schedule over the stored ciphertext and XORing each byte —
returns exactly the original bytes of s, for any x. -/
theorem roundtrip_narrow (key : Nat) (s : List Nat) (x : Nat) :
    ∃ o : ObfString, ObfString.obfuscate8 s.length key s = some o ∧
      o.deobfuscate8 x = s :=
  ⟨{ key := key, data := obfdata 256 key s }, obfuscate8_spec key s, by
    simp [ObfString.deobfuscate8, decrypt_obfdata]⟩

/-- C2: equality consistency for the narrow form.  For every source string s,
candidate t, key and masking scalar x, eq on the literal built from (key, s)
returns true exactly when t equals the decoded plaintext; in particular a
length mismatch yields false (the unit-by-unit comparison and its short
circuit at the first inequality are the definition of decrypteq). -/
theorem eq_consistent_narrow (key : Nat) (s t : List Nat) (x : Nat) :
    ∃ o : ObfString, ObfString.obfuscate8 s.length key s = some o ∧
      o.eq8 t x = decide (o.deobfuscate8 x = t) :=
  ⟨{ key := key, data := obfdata 256 key s }, obfuscate8_spec key s, by
    unfold ObfString.eq8 ObfString.deobfuscate8
    simp only
    by_cases hl : (obfdata 256 key s).length = t.length
    · rw [if_neg (by simpa using hl)]
      have hiff := decrypteq_iff 256 key (obfdata 256 key s) t hl
      cases hd : decrypteq 256 key (obfdata 256 key s) t with
      | false =>
        have hne : ¬ decryptbuf 256 key (obfdata 256 key s) = t := by
          intro heq
          rw [hd] at hiff
          exact absurd (hiff.mpr heq) (by simp)
        simp [hne]
      | true =>
        have heq : decryptbuf 256 key (obfdata 256 key s) = t := hiff.mp hd
        simp [heq]
    · rw [if_pos (by simpa using hl)]
      have hne : ¬ decryptbuf 256 key (obfdata 256 key s) = t := by
        intro heq
        apply hl
        rw [← heq, decryptbuf_length]
      simp [hne]⟩

/-- C9 (implicit): zero-key degeneracy.  next_round has 0 as a fixed point,
hence every round key of the schedule started at 0 is 0, and the narrow
literal built with key 0 stores its ciphertext byte-for-byte equal to the
plaintext. -/
theorem zero_key_degenerate :
    next_round 0 = 0 ∧ (∀ n : Nat, next_round^[n] 0 = 0) ∧
      ∀ s : List Nat, ObfString.obfuscate8 s.length 0 s = some { key := 0, data := s } := by
  refine ⟨next_round_zero, iterate_next_round_zero, fun s => ?_⟩
  rw [obfuscate8_spec 0 s, obfdata_zero_key]

/-- C7: hash determinism and the regression anchor.  hash is a pure function
of the input bytes, and on the UTF-8 bytes of "Hello World" it evaluates to
the documented 32-bit anchor 1481604729. -/
theorem hash_deterministic_anchor :
    (∀ s t : List Nat, s = t → hashStr s = hashStr t) ∧ hashStr helloWorldBytes = 1481604729 :=
  ⟨fun _ _ h => by rw [h], by decide⟩

/-- Witness for C7 at the concrete anchor input. -/
theorem hash_deterministic_anchor_witness :
    hashStr helloWorldBytes = hashStr helloWorldBytes ∧ hashStr helloWorldBytes = 1481604729 :=
  ⟨hash_deterministic_anchor.1 helloWorldBytes helloWorldBytes rfl,
    hash_deterministic_anchor.2⟩

/-- C8: the data-pointer offset constant ((entropy as u8 & 31) + 32) lies in
[32, 63] for every 64-bit entropy value. -/
theorem xref_shift_range (e : Nat) (he : e < 18446744073709551616) :
    32 ≤ xrefShift e ∧ xrefShift e ≤ 63 := by
  unfold xrefShift
  have h1 : (e % 256) &&& 31 ≤ 31 := Nat.and_le_right
  omega

/-- Witness for C8 at a concrete entropy value. -/
theorem xref_shift_range_witness :
    12345 < 18446744073709551616 ∧ 32 ≤ xrefShift 12345 ∧ xrefShift 12345 ≤ 63 := by
  refine ⟨by decide, ?_, ?_⟩
  · exact (xref_shift_range 12345 (by decide)).1
  · exact (xref_shift_range 12345 (by decide)).2

/-! Helper lemmas about the wide-text converter. -/

theorem utf8Step_shrink {s : List Nat} {chr : Nat} {rest : List Nat}
    (h : utf8Step s = some (chr, rest)) : rest.length < s.length := by
  cases s with
  | nil => simp [utf8Step] at h
  | cons b0 t =>
    simp only [utf8Step] at h
    split at h
    · cases h; simp only [List.length_cons]; omega
    · split at h
      · split at h
        · cases h; simp only [List.length_cons]; omega
        · cases h
      · split at h
        · split at h
          · cases h; simp only [List.length_cons]; omega
          · cases h
        · split at h
          · split at h
            · cases h; simp only [List.length_cons]; omega
            · cases h
          · cases h


theorem wide_len_nil : wide_len [] = some 0 := by
  rw [wide_len.eq_def]

theorem wide_len_isNone (b0 : Nat) (t : List Nat)
    (h : utf8Step (b0 :: t) = none) : wide_len (b0 :: t) = none := by
  rw [wide_len.eq_def]
  split
  · rename_i heq
    exact absurd heq (List.cons_ne_nil b0 t)
  · rename_i b0' t' heq
    cases heq
    split
    · rfl
    · rename_i chr' rest' heq2
      rw [h] at heq2; cases heq2

theorem wide_len_step_none (b0 : Nat) (t : List Nat) (chr : Nat) (rest : List Nat)
    (h : utf8Step (b0 :: t) = some (chr, rest)) (hr : wide_len rest = none) :
    wide_len (b0 :: t) = none := by
  rw [wide_len.eq_def]
  split
  · rename_i heq
    exact absurd heq (List.cons_ne_nil b0 t)
  · rename_i b0' t' heq
    cases heq
    split
    · rename_i heq2
      rw [h] at heq2
    · rename_i chr' rest' heq2
      rw [h] at heq2; cases heq2
      rw [hr]

theorem wide_len_step_some (b0 : Nat) (t : List Nat) (chr : Nat) (rest : List Nat) (n : Nat)
    (h : utf8Step (b0 :: t) = some (chr, rest)) (hr : wide_len rest = some n) :
    wide_len (b0 :: t) = some ((if chr ≥ 0x10000 then 2 else 1) + n) := by
  rw [wide_len.eq_def]
  split
  · rename_i heq
    exact absurd heq (List.cons_ne_nil b0 t)
  · rename_i b0' t' heq
    cases heq
    split
    · rename_i heq2
      rw [h] at heq2; cases heq2
    · rename_i chr' rest' heq2
      rw [h] at heq2; cases heq2
      rw [hr]

theorem wideUnits_nil : wideUnits [] = some [] := by
  rw [wideUnits.eq_def]

theorem wideUnits_isNone (b0 : Nat) (t : List Nat)
    (h : utf8Step (b0 :: t) = none) : wideUnits (b0 :: t) = none := by
  rw [wideUnits.eq_def]
  split
  · rename_i heq
    exact absurd heq (List.cons_ne_nil b0 t)
  · rename_i b0' t' heq
    cases heq
    split
    · rfl
    · rename_i chr' rest' heq2
      rw [h] at heq2; cases heq2

theorem wideUnits_step_none (b0 : Nat) (t : List Nat) (chr : Nat) (rest : List Nat)
    (h : utf8Step (b0 :: t) = some (chr, rest)) (hr : wideUnits rest = none) :
    wideUnits (b0 :: t) = none := by
  rw [wideUnits.eq_def]
  split
  · rename_i heq
    exact absurd heq (List.cons_ne_nil b0 t)
  · rename_i b0' t' heq
    cases heq
    split
    · rename_i heq2
      rw [h] at heq2
    · rename_i chr' rest' heq2
      rw [h] at heq2; cases heq2
      rw [hr]

theorem wideUnits_step_some (b0 : Nat) (t : List Nat) (chr : Nat) (rest : List Nat)
    (us : List Nat)
    (h : utf8Step (b0 :: t) = some (chr, rest)) (hr : wideUnits rest = some us) :
    wideUnits (b0 :: t) =
      some (if chr ≥ 0x10000 then hiSurrogate chr :: loSurrogate chr :: us
        else chr % 65536 :: us) := by
  rw [wideUnits.eq_def]
  split
  · rename_i heq
    exact absurd heq (List.cons_ne_nil b0 t)
  · rename_i b0' t' heq
    cases heq
    split
    · rename_i heq2
      rw [h] at heq2; cases heq2
    · rename_i chr' rest' heq2
      rw [h] at heq2; cases heq2
      rw [hr]

theorem wideAux_nil (data : List Nat) (j : Nat) : wideAux [] data j = some data := by
  rw [wideAux.eq_def]

theorem wideAux_isNone (b0 : Nat) (t : List Nat) (data : List Nat) (j : Nat)
    (h : utf8Step (b0 :: t) = none) : wideAux (b0 :: t) data j = none := by
  rw [wideAux.eq_def]
  split
  · rename_i heq
    exact absurd heq (List.cons_ne_nil b0 t)
  · rename_i b0' t' heq
    cases heq
    split
    · rfl
    · rename_i chr' rest' heq2
      rw [h] at heq2; cases heq2

theorem wideAux_step (b0 : Nat) (t : List Nat) (chr : Nat) (rest : List Nat)
    (h : utf8Step (b0 :: t) = some (chr, rest)) (data : List Nat) (j : Nat) :
    wideAux (b0 :: t) data j =
      if chr ≥ 0x10000 then
        if j + 1 < data.length then
          wideAux rest ((data.set j (hiSurrogate chr)).set (j + 1) (loSurrogate chr)) (j + 2)
        else none
      else
        if j < data.length then wideAux rest (data.set j (chr % 65536)) (j + 1)
        else none := by
  rw [wideAux.eq_def]
  split
  · rename_i heq
    exact absurd heq (List.cons_ne_nil b0 t)
  · rename_i b0' t' heq
    cases heq
    split
    · rename_i heq2
      rw [h] at heq2; cases heq2
    · rename_i chr' rest' heq2
      rw [h] at heq2; cases heq2
      rfl

theorem wide_len_eq_map : ∀ s : List Nat, wide_len s = (wideUnits s).map List.length := by
  have main : ∀ N : Nat, ∀ s : List Nat, s.length ≤ N →
      wide_len s = (wideUnits s).map List.length := by
    intro N
    induction N with
    | zero =>
      intro s hs
      cases s with
      | nil => rw [wide_len_nil, wideUnits_nil]; rfl
      | cons b t => simp at hs
    | succ N ih =>
      intro s hs
      cases s with
      | nil => rw [wide_len_nil, wideUnits_nil]; rfl
      | cons b0 t =>
        cases hstep : utf8Step (b0 :: t) with
        | none => rw [wide_len_isNone b0 t hstep, wideUnits_isNone b0 t hstep]; rfl
        | some pr =>
          obtain ⟨chr, rest⟩ := pr
          have hlt : rest.length < (b0 :: t).length := utf8Step_shrink hstep
          simp only [List.length_cons] at hs hlt
          have hrec := ih rest (by omega)
          cases hur : wideUnits rest with
          | none =>
            have hlr : wide_len rest = none := by rw [hrec, hur]; rfl
            rw [wide_len_step_none b0 t chr rest hstep hlr,
              wideUnits_step_none b0 t chr rest hstep hur]
            rfl
          | some us' =>
            have hlr : wide_len rest = some us'.length := by rw [hrec, hur]; rfl
            rw [wide_len_step_some b0 t chr rest us'.length hstep hlr,
              wideUnits_step_some b0 t chr rest us' hstep hur]
            simp only [Option.map_some']
            congr 1
            by_cases hc : chr ≥ 0x10000
            · simp only [hc, if_true, List.length_cons]
              omega
            · simp only [hc, if_false, List.length_cons]
              omega
  intro s
  exact main s.length s (Nat.le_refl _)

theorem wideAux_some : ∀ N : Nat, ∀ s : List Nat, s.length ≤ N →
    ∀ us data j, wideUnits s = some us → j + us.length ≤ data.length →
      wideAux s data j = some (listWrite data j us) := by
  intro N
  induction N with
  | zero =>
    intro s hs us data j hu _
    cases s with
    | nil =>
      rw [wideUnits_nil] at hu
      cases hu
      rw [wideAux_nil]
      rfl
    | cons b t => simp at hs
  | succ N ih =>
    intro s hs us data j hu hroom
    cases s with
    | nil =>
      rw [wideUnits_nil] at hu
      cases hu
      rw [wideAux_nil]
      rfl
    | cons b0 t =>
      cases hstep : utf8Step (b0 :: t) with
      | none => rw [wideUnits_isNone b0 t hstep] at hu; cases hu
      | some pr =>
        obtain ⟨chr, rest⟩ := pr
        have hlt : rest.length < (b0 :: t).length := utf8Step_shrink hstep
        simp only [List.length_cons] at hs hlt
        rw [wideAux_step b0 t chr rest hstep]
        cases hur : wideUnits rest with
        | none => rw [wideUnits_step_none b0 t chr rest hstep hur] at hu; cases hu
        | some us' =>
          rw [wideUnits_step_some b0 t chr rest us' hstep hur] at hu
          by_cases hc : chr ≥ 0x10000
          · rw [if_pos hc] at hu
            cases hu
            simp only [List.length_cons] at hroom
            rw [if_pos hc, if_pos (show j + 1 < data.length by omega)]
            rw [ih rest (by omega) us'
              ((data.set j (hiSurrogate chr)).set (j + 1) (loSurrogate chr)) (j + 2) hur
              (by simp only [List.length_set]; omega)]
            rfl
          · rw [if_neg hc] at hu
            cases hu
            simp only [List.length_cons] at hroom
            rw [if_neg hc, if_pos (show j < data.length by omega)]
            rw [ih rest (by omega) us' (data.set j (chr % 65536)) (j + 1) hur
              (by simp only [List.length_set]; omega)]
            rfl

theorem wide_of_wide_len (s : List Nat) (n : Nat) (h : wide_len s = some n) :
    ∃ us : List Nat, wideUnits s = some us ∧ us.length = n ∧ wide n s = some us := by
  rw [wide_len_eq_map] at h
  cases hu : wideUnits s with
  | none => rw [hu] at h; cases h
  | some us =>
    rw [hu] at h
    simp only [Option.map_some'] at h
    injection h with hlen
    refine ⟨us, rfl, hlen, ?_⟩
    unfold wide
    rw [wideAux_some s.length s (Nat.le_refl _) us (List.replicate n 0) 0 hu
      (by simp only [List.length_replicate]; omega)]
    rw [← hlen, listWrite_replicate]

set_option maxRecDepth 4000 in
theorem byteA : ∀ b : Nat, b ≤ 0x7f → b &&& 0x80 = 0 := by decide

set_option maxRecDepth 4000 in
theorem byteB : ∀ b : Nat, b ≤ 0xdf → 0xc2 ≤ b →
    ¬(b &&& 0x80 = 0) ∧ b &&& 0xe0 = 0xc0 := by decide

set_option maxRecDepth 4000 in
theorem byteC : ∀ b : Nat, b ≤ 0xef → 0xe0 ≤ b →
    ¬(b &&& 0x80 = 0) ∧ ¬(b &&& 0xe0 = 0xc0) ∧ b &&& 0xf0 = 0xe0 := by decide

set_option maxRecDepth 4000 in
theorem byteD : ∀ b : Nat, b ≤ 0xf4 → 0xf0 ≤ b →
    ¬(b &&& 0x80 = 0) ∧ ¬(b &&& 0xe0 = 0xc0) ∧ ¬(b &&& 0xf0 = 0xe0) ∧
      b &&& 0xf8 = 0xf0 := by decide

theorem validUtf8_nil : validUtf8 [] = true := by
  rw [validUtf8.eq_def]

theorem validUtf8_cons_none (b0 : Nat) (t : List Nat) (h : validStep (b0 :: t) = none) :
    validUtf8 (b0 :: t) = false := by
  rw [validUtf8.eq_def]
  split
  · rename_i heq
    exact absurd heq (List.cons_ne_nil b0 t)
  · rename_i b0' t' heq
    cases heq
    split
    · rfl
    · rename_i r' heq2
      rw [h] at heq2; cases heq2

theorem validUtf8_cons_some (b0 : Nat) (t r : List Nat) (h : validStep (b0 :: t) = some r) :
    validUtf8 (b0 :: t) = validUtf8 r := by
  rw [validUtf8.eq_def]
  split
  · rename_i heq
    exact absurd heq (List.cons_ne_nil b0 t)
  · rename_i b0' t' heq
    cases heq
    split
    · rename_i heq2
      rw [h] at heq2; cases heq2
    · rename_i r' heq2
      rw [h] at heq2; cases heq2
      rfl

theorem validStep_agree (b0 : Nat) (t r : List Nat) (h : validStep (b0 :: t) = some r) :
    (utf8Step (b0 :: t)).map Prod.snd = some r := by
  simp only [validStep] at h
  repeat' split at h
  all_goals try cases h
  all_goals simp only [utf8Step]
  · rw [if_pos (byteA b0 (by assumption))]
    rfl
  · have hb := byteB b0 (by omega) (by omega)
    rw [if_neg hb.1, if_pos hb.2]
    rfl
  · have hb := byteC b0 (by omega) (by omega)
    rw [if_neg hb.1, if_neg hb.2.1, if_pos hb.2.2]
    rfl
  · have hb := byteC b0 (by omega) (by omega)
    rw [if_neg hb.1, if_neg hb.2.1, if_pos hb.2.2]
    rfl
  · have hb := byteC b0 (by omega) (by omega)
    rw [if_neg hb.1, if_neg hb.2.1, if_pos hb.2.2]
    rfl
  · have hb := byteD b0 (by omega) (by omega)
    rw [if_neg hb.1, if_neg hb.2.1, if_neg hb.2.2.1, if_pos hb.2.2.2]
    rfl
  · have hb := byteD b0 (by omega) (by omega)
    rw [if_neg hb.1, if_neg hb.2.1, if_neg hb.2.2.1, if_pos hb.2.2.2]
    rfl
  · have hb := byteD b0 (by omega) (by omega)
    rw [if_neg hb.1, if_neg hb.2.1, if_neg hb.2.2.1, if_pos hb.2.2.2]
    rfl

theorem units_of_valid : ∀ N : Nat, ∀ s : List Nat, s.length ≤ N →
    validUtf8 s = true → ∃ us, wideUnits s = some us := by
  intro N
  induction N with
  | zero =>
    intro s hs _
    cases s with
    | nil => exact ⟨[], wideUnits_nil⟩
    | cons b t => simp at hs
  | succ N ih =>
    intro s hs hv
    cases s with
    | nil => exact ⟨[], wideUnits_nil⟩
    | cons b0 t =>
      cases hvs : validStep (b0 :: t) with
      | none => rw [validUtf8_cons_none b0 t hvs] at hv; cases hv
      | some r =>
        have hag := validStep_agree b0 t r hvs
        cases hu : utf8Step (b0 :: t) with
        | none => rw [hu] at hag; cases hag
        | some p =>
          obtain ⟨chr, rest⟩ := p
          rw [hu] at hag
          simp only [Option.map_some'] at hag
          injection hag with hr
          subst hr
          have hvr : validUtf8 rest = true := by
            rw [← validUtf8_cons_some b0 t rest hvs]; exact hv
          have hlt : rest.length < (b0 :: t).length := utf8Step_shrink hu
          simp only [List.length_cons] at hs hlt
          obtain ⟨us, hus⟩ := ih rest (by omega) hvr
          exact ⟨_, wideUnits_step_some b0 t chr rest us hu hus⟩

theorem listWrite_length (us : List Nat) : ∀ data j, (listWrite data j us).length = data.length := by
  induction us with
  | nil => intro data j; rfl
  | cons u tail ih =>
    intro data j
    show (listWrite (data.set j u) (j + 1) tail).length = data.length
    rw [ih (data.set j u) (j + 1), List.length_set]

theorem obfuscate16_spec (LEN key : Nat) (s us : List Nat)
    (hw : wide LEN s = some us) (hl : us.length = LEN) :
    ObfString.obfuscate16 LEN key s = some { key := key, data := obfdata 65536 key us } := by
  unfold ObfString.obfuscate16
  rw [hw]
  dsimp only
  rw [obfWrite_some 65536 us key (List.replicate LEN 0) 0
    (by simp only [List.length_replicate]; omega)]
  dsimp only
  have hdl : (obfdata 65536 key us).length = LEN := by rw [obfdata_length]; exact hl
  rw [show List.replicate LEN 0 = List.replicate (obfdata 65536 key us).length 0 from by rw [hdl],
    listWrite_replicate]

/-- C3: length invariant.  For every source string s (as UTF-8 bytes) and key,
the narrow literal built with LEN = s.len() (as obfconst! instantiates it) has
a data array of exactly s.length bytes, and whenever the wide-unit count of s
is n (wide_len s = some n), the wide literal built with LEN = n has a data
array of exactly n UTF-16 units. -/
theorem length_invariant (key : Nat) (s : List Nat) (n : Nat) (h : wide_len s = some n) :
    (∃ o8 : ObfString, ObfString.obfuscate8 s.length key s = some o8 ∧
      o8.data.length = s.length) ∧
    (∃ o16 : ObfString, ObfString.obfuscate16 n key s = some o16 ∧
      o16.data.length = n) := by
  constructor
  · exact ⟨_, obfuscate8_spec key s, obfdata_length 256 key s⟩
  · obtain ⟨us, _, hlen, hw⟩ := wide_of_wide_len s n h
    refine ⟨_, obfuscate16_spec n key s us hw hlen, ?_⟩
    show (obfdata 65536 key us).length = n
    rw [obfdata_length]
    exact hlen

/-- Witness for C3 at the concrete input "ab" (bytes [97, 98]), whose wide
unit count is 2. -/
theorem length_invariant_witness :
    wide_len [97, 98] = some 2 ∧
    ((∃ o8 : ObfString, ObfString.obfuscate8 2 1 [97, 98] = some o8 ∧
        o8.data.length = 2) ∧
     (∃ o16 : ObfString, ObfString.obfuscate16 2 1 [97, 98] = some o16 ∧
        o16.data.length = 2)) := by
  have h98 : wide_len [98] = some 1 := by
    have := wide_len_step_some 98 [] 98 [] 0 (by decide) wide_len_nil
    simpa using this
  have hab : wide_len [97, 98] = some 2 := by
    have := wide_len_step_some 97 [98] 97 [98] 1 (by decide) h98
    simpa using this
  exact ⟨hab, length_invariant 1 [97, 98] 2 hab⟩

/-- C6: surrogate-pair emission.  If the UTF-8 decoder step yields code point
chr (at most 0x10FFFF, the Unicode bound guaranteed for decoded string
literals), then the wide converter emits exactly the two units
hiSurrogate chr = 0xD800 + (chr - 0x10000) / 0x400 and
loSurrogate chr = 0xDC00 + (chr - 0x10000) % 0x400 when chr ≥ 0x10000, a
valid high/low surrogate pair whose standard UTF-16 recombination returns
chr; and a single unit when chr < 0x10000. -/
theorem surrogate_pair (s : List Nat) (chr : Nat) (rest us : List Nat)
    (h : utf8Step s = some (chr, rest)) (hus : wideUnits rest = some us)
    (hmax : chr ≤ 0x10FFFF) :
    (0x10000 ≤ chr →
      wideUnits s = some (hiSurrogate chr :: loSurrogate chr :: us) ∧
      0xD800 ≤ hiSurrogate chr ∧ hiSurrogate chr ≤ 0xDBFF ∧
      0xDC00 ≤ loSurrogate chr ∧ loSurrogate chr ≤ 0xDFFF ∧
      0x10000 + (hiSurrogate chr - 0xD800) * 0x400 + (loSurrogate chr - 0xDC00) = chr) ∧
    (chr < 0x10000 → wideUnits s = some (chr % 65536 :: us)) := by
  cases s with
  | nil => simp [utf8Step] at h
  | cons b0 t =>
    have hstep := wideUnits_step_some b0 t chr rest us h hus
    constructor
    · intro hc
      refine ⟨by rw [hstep, if_pos hc], ?_, ?_, ?_, ?_, ?_⟩
      all_goals simp only [hiSurrogate, loSurrogate]
      all_goals omega
    · intro hc
      rw [hstep, if_neg (by omega)]

/-- Witness for C6 at the globe emoji U+1F30D (UTF-8 bytes [240, 159, 140,
141], code point 127757). -/
theorem surrogate_pair_witness :
    utf8Step [240, 159, 140, 141] = some (127757, []) ∧ 127757 ≤ 0x10FFFF ∧
    ((0x10000 ≤ 127757 →
      wideUnits [240, 159, 140, 141] =
        some (hiSurrogate 127757 :: loSurrogate 127757 :: []) ∧
      0xD800 ≤ hiSurrogate 127757 ∧ hiSurrogate 127757 ≤ 0xDBFF ∧
      0xDC00 ≤ loSurrogate 127757 ∧ loSurrogate 127757 ≤ 0xDFFF ∧
      0x10000 + (hiSurrogate 127757 - 0xD800) * 0x400 + (loSurrogate 127757 - 0xDC00) =
        127757) ∧
    (127757 < 0x10000 → wideUnits [240, 159, 140, 141] = some (127757 % 65536 :: []))) :=
  ⟨by decide, by decide,
    surrogate_pair [240, 159, 140, 141] 127757 [] [] (by decide) wideUnits_nil (by decide)⟩

/-- C10 (implicit): totality of the wide converter on well-formed UTF-8.  For
every byte sequence that is well-formed UTF-8 (validStep accepted until
exhaustion), wide_len succeeds (no unimplemented branch, no out-of-bounds
continuation read) and wide at that length succeeds as well. -/
theorem wide_total_on_valid (s : List Nat) (hv : validUtf8 s = true) :
    ∃ n us, wide_len s = some n ∧ us.length = n ∧ wide n s = some us := by
  obtain ⟨us, hus⟩ := units_of_valid s.length s (Nat.le_refl _) hv
  have hlen : wide_len s = some us.length := by rw [wide_len_eq_map, hus]; rfl
  obtain ⟨us', _, hlen', hw⟩ := wide_of_wide_len s us.length hlen
  exact ⟨us.length, us', hlen, hlen', hw⟩

/-- Witness for C10 at the concrete input "Hé🌍" (UTF-8 bytes
[72, 195, 169, 240, 159, 140, 141]: a 1-, a 2- and a 4-byte sequence). -/
theorem wide_total_on_valid_witness :
    validUtf8 [72, 195, 169, 240, 159, 140, 141] = true ∧
    ∃ n us, wide_len [72, 195, 169, 240, 159, 140, 141] = some n ∧
      us.length = n ∧ wide n [72, 195, 169, 240, 159, 140, 141] = some us := by
  have hv : validUtf8 [72, 195, 169, 240, 159, 140, 141] = true := by
    rw [validUtf8_cons_some 72 [195, 169, 240, 159, 140, 141]
      [195, 169, 240, 159, 140, 141] (by decide)]
    rw [validUtf8_cons_some 195 [169, 240, 159, 140, 141] [240, 159, 140, 141] (by decide)]
    rw [validUtf8_cons_some 240 [159, 140, 141] [] (by decide)]
    exact validUtf8_nil
  exact ⟨hv, wide_total_on_valid [72, 195, 169, 240, 159, 140, 141] hv⟩

/-! Helper lemmas for the splitmix shape (C5) and the xorshift permutation (C4). -/

theorem shiftRight_xor_distrib (x y n : Nat) :
    (x ^^^ y) >>> n = (x >>> n) ^^^ (y >>> n) := by
  apply Nat.eq_of_testBit_eq
  intro i
  simp [Nat.testBit_shiftRight, Nat.testBit_xor]

theorem xorshift15_twice (z : Nat) :
    (z ^^^ (z >>> 15)) ^^^ ((z ^^^ (z >>> 15)) >>> 15) = z ^^^ (z >>> 30) := by
  rw [shiftRight_xor_distrib]
  rw [show z >>> 15 >>> 15 = z >>> 30 from by rw [← Nat.shiftRight_add]]
  rw [Nat.xor_assoc, ← Nat.xor_assoc (z >>> 15) (z >>> 15), Nat.xor_self, Nat.zero_xor]

theorem shiftRight_le_self (z n : Nat) : z >>> n ≤ z := by
  rw [Nat.shiftRight_eq_div_pow]
  exact Nat.div_le_self _ _

theorem bxor_cancel (a b c d : Bool) (hbd : b = d) (h : (a ^^ b) = (c ^^ d)) : a = c := by
  subst hbd
  revert h
  cases a <;> cases c <;> cases b <;> decide

theorem testBit_high (x : Nat) (hx : x < 2 ^ 32) (i : Nat) (hi : 32 ≤ i) :
    x.testBit i = false :=
  Nat.testBit_lt_two_pow (lt_of_lt_of_le hx (Nat.pow_le_pow_right (by norm_num) hi))

theorem xor_shl_mod_inj (n : Nat) (hn : 0 < n) (x y : Nat)
    (hx : x < 2 ^ 32) (hy : y < 2 ^ 32)
    (h : (x ^^^ (x <<< n)) % 2 ^ 32 = (y ^^^ (y <<< n)) % 2 ^ 32) : x = y := by
  apply Nat.eq_of_testBit_eq
  intro i
  induction i using Nat.strong_induction_on with
  | _ i ih =>
    by_cases hi : i < 32
    · have hb := congrArg (fun z => Nat.testBit z i) h
      simp only [Nat.testBit_mod_two_pow, Nat.testBit_xor, Nat.testBit_shiftLeft] at hb
      rw [decide_eq_true hi, Bool.true_and, Bool.true_and] at hb
      by_cases hin : n ≤ i
      · rw [decide_eq_true (show i ≥ n from hin), Bool.true_and, Bool.true_and] at hb
        exact bxor_cancel _ _ _ _ (ih (i - n) (by omega)) hb
      · rw [decide_eq_false (show ¬ i ≥ n from hin), Bool.false_and, Bool.false_and,
          Bool.xor_false, Bool.xor_false] at hb
        exact hb
    · rw [testBit_high x hx i (by omega), testBit_high y hy i (by omega)]

theorem xor_shr_inj (n : Nat) (hn : 0 < n) (x y : Nat)
    (hx : x < 2 ^ 32) (hy : y < 2 ^ 32)
    (h : x ^^^ (x >>> n) = y ^^^ (y >>> n)) : x = y := by
  have main : ∀ d i : Nat, 32 ≤ i + d → x.testBit i = y.testBit i := by
    intro d
    induction d with
    | zero =>
      intro i hi
      rw [testBit_high x hx i (by omega), testBit_high y hy i (by omega)]
    | succ d ih =>
      intro i hi
      by_cases hil : i < 32
      · have hb := congrArg (fun z => Nat.testBit z i) h
        simp only [Nat.testBit_xor, Nat.testBit_shiftRight] at hb
        exact bxor_cancel _ _ _ _ (ih (n + i) (by omega)) hb
      · rw [testBit_high x hx i (by omega), testBit_high y hy i (by omega)]
  apply Nat.eq_of_testBit_eq
  intro i
  exact main 32 i (by omega)

theorem next_round_inj (x y : Nat) (hx : x < 2 ^ 32) (hy : y < 2 ^ 32)
    (h : next_round x = next_round y) : x = y := by
  have hrw : ∀ z : Nat, next_round z =
      ((((z ^^^ (z <<< 13)) % 2 ^ 32) ^^^ (((z ^^^ (z <<< 13)) % 2 ^ 32) >>> 17)) ^^^
        ((((z ^^^ (z <<< 13)) % 2 ^ 32) ^^^ (((z ^^^ (z <<< 13)) % 2 ^ 32) >>> 17)) <<< 5)) %
        2 ^ 32 := by
    intro z
    simp only [next_round]
    norm_num
  rw [hrw x, hrw y] at h
  have ha : (x ^^^ (x <<< 13)) % 2 ^ 32 < 2 ^ 32 := Nat.mod_lt _ (by norm_num)
  have hb2 : (y ^^^ (y <<< 13)) % 2 ^ 32 < 2 ^ 32 := Nat.mod_lt _ (by norm_num)
  have ha2 : ((x ^^^ (x <<< 13)) % 2 ^ 32) ^^^ (((x ^^^ (x <<< 13)) % 2 ^ 32) >>> 17) < 2 ^ 32 :=
    Nat.xor_lt_two_pow ha (lt_of_le_of_lt (shiftRight_le_self _ _) ha)
  have hb3 : ((y ^^^ (y <<< 13)) % 2 ^ 32) ^^^ (((y ^^^ (y <<< 13)) % 2 ^ 32) >>> 17) < 2 ^ 32 :=
    Nat.xor_lt_two_pow hb2 (lt_of_le_of_lt (shiftRight_le_self _ _) hb2)
  have h2 := xor_shl_mod_inj 5 (by norm_num) _ _ ha2 hb3 h
  have h1 := xor_shr_inj 17 (by norm_num) _ _ ha hb2 h2
  exact xor_shl_mod_inj 13 (by norm_num) _ _ hx hy h1

theorem nextRoundFin_bijective : Function.Bijective nextRoundFin := by
  rw [← Finite.injective_iff_bijective]
  intro a b hab
  obtain ⟨x, hx⟩ := a
  obtain ⟨y, hy⟩ := b
  apply Fin.ext
  simp only [nextRoundFin, Fin.mk.injEq] at hab
  exact next_round_inj x y (by norm_num at hx ⊢; omega) (by norm_num at hy ⊢; omega) hab

/-- Supporting fact for the C4 counterexample: the iteration of next_round
started at seed 0 never reaches the value 1, so it does not cycle through the
whole 32-bit space. -/
theorem next_round_orbit_of_zero_misses_one : ¬ ∃ k : Nat, next_round^[k] 0 = 1 := by
  rintro ⟨k, hk⟩
  rw [iterate_next_round_zero k] at hk
  exact absurd hk (by decide)

/-- C4 counterexample: as stated, next_round is claimed to be a full-period
permutation whose iteration cycles through the whole 32-bit space.  That is
false at the concrete seed 0: next_round fixes 0, so even after 2^32 - 1
steps (the length a full-period cycle would have) the iteration started at 0
is still at 0 — its orbit has size 1, not 2^32. -/
theorem next_round_zero_fixed_cx :
    next_round 0 = 0 ∧ next_round^[4294967295] 0 = 0 :=
  ⟨next_round_zero, iterate_next_round_zero 4294967295⟩

/-- C4 amended: next_round (the three-step xorshift x ^= x << 13;
x ^= x >> 17; x ^= x << 5 on 32-bit values) is a bijection of the 32-bit
space, but it is not full-period on the whole space: 0 is a fixed point, so
every iterate of 0 is 0 and iteration from any seed can cycle through at
most the 2^32 - 1 nonzero values, never the whole 32-bit space. -/
theorem next_round_bijection_with_fixed_point :
    Function.Bijective nextRoundFin ∧ next_round 0 = 0 ∧
      ∀ k : Nat, next_round^[k] 0 = 0 :=
  ⟨nextRoundFin_bijective, next_round_zero, iterate_next_round_zero⟩

/-- C5: the bit mixer has the shape the specification describes — add a fixed
odd constant, then (xor-shift, multiply-by-odd-constant) rounds, then a final
xor-shift — with three multiply rounds: the first code round
(z ^ (z >> 30)) * C1 factors as the two rounds (shift 15, multiplier 1) and
(shift 15, multiplier C1), because applying z ^= z >> 15 twice equals
z ^= z >> 30 on u64, and 1 is odd. -/
theorem splitmix_three_round_shape :
    ∃ c0 s1 c1 s2 c2 s3 c3 s4 : Nat,
      c0 % 2 = 1 ∧ c1 % 2 = 1 ∧ c2 % 2 = 1 ∧ c3 % 2 = 1 ∧
      ∀ x : Nat, splitmix x = mixSpecShape c0 [(s1, c1), (s2, c2), (s3, c3)] s4 x := by
  refine ⟨0x9e3779b97f4a7c15, 15, 1, 15, 0xbf58476d1ce4e5b9, 27, 0x94d049bb133111eb, 31,
    by norm_num, by norm_num, by norm_num, by norm_num, fun x => ?_⟩
  unfold splitmix mixSpecShape
  dsimp only
  rw [show ∀ (f : Nat → Nat × Nat → Nat) (z : Nat) (p q r : Nat × Nat),
      List.foldl f z [p, q, r] = f (f (f z p) q) r from fun f z p q r => rfl]
  dsimp only
  rw [Nat.mul_one]
  have hn : (x + 0x9e3779b97f4a7c15) % 18446744073709551616 < 18446744073709551616 :=
    Nat.mod_lt _ (by norm_num)
  have hw : ((x + 0x9e3779b97f4a7c15) % 18446744073709551616) ^^^
      (((x + 0x9e3779b97f4a7c15) % 18446744073709551616) >>> 15) < 18446744073709551616 := by
    have h2 : (18446744073709551616 : Nat) = 2 ^ 64 := by norm_num
    rw [h2] at hn ⊢
    exact Nat.xor_lt_two_pow hn (lt_of_le_of_lt (shiftRight_le_self _ _) hn)
  rw [Nat.mod_eq_of_lt hw]
  rw [xorshift15_twice ((x + 0x9e3779b97f4a7c15) % 18446744073709551616)]
